import Mathlib

/-!
Verification development for the Gecode bin-packing propagator core
(`gecode/int/bin-packing/propagate.hpp`).

The C++ code is shallowly embedded: machine `int` values become `Int`
(arithmetic is exact; the one overflow-related component,
`sanitizeLambdaRange`, is treated against the 32-bit bound explicitly),
C++ `/` and `%` become `Int.tdiv` / `Int.tmod` (truncation toward zero),
and every raw array access `s[i]` goes through a checked lookup that
returns `none` when the index is out of range.  Loops are modelled with
explicit fuel; a result of `none` therefore witnesses either an
out-of-bounds access or fuel exhaustion, and the termination/safety
theorems show `some` results under the documented preconditions.

A multiset of sizes is represented by the list of its elements in the
(descending) order in which the C++ code indexes them; a sub-multiset is
a `List.Sublist` of it.
-/

namespace BinPacking

/-- Entry `s[i]` of a size list, with value 0 outside the bounds
(bounds are enforced separately by `getI`). -/
def ent (s : List Int) (i : Nat) : Int := s.getD i 0

/-- Sum of the `w` consecutive entries of `s` starting at index `d`. -/
def seg (s : List Int) (d w : Nat) : Int := ∑ i ∈ Finset.range w, ent s (d + i)

/-- Total extension of an order embedding `Fin m ↪o Fin N` to `ℕ → ℕ`
(used to reason about the index positions of a sublist). -/
def extendEmb (m N : Nat) (f : Fin m ↪o Fin N) : Nat → Nat :=
  fun j => if h : j < m then (f ⟨j, h⟩ : Nat) else N + j

/-- Checked array access `s[i]` for an `int` index, as executed by the C++
code: `none` models an out-of-bounds read. -/
def getI (s : List Int) (i : Int) : Option Int :=
  if 0 ≤ i ∧ i < (s.length : Int) then some (ent s i.toNat) else none

/-- The size list is sorted in descending order (the documented
precondition for `Pack::nosum`, established by sorting items by size). -/
def sortedDesc (s : List Int) : Prop := List.Sorted (· ≥ ·) s

/-- All sizes are nonnegative (the `Item` invariant `size ≥ 0`). -/
def nonnegSizes (s : List Int) : Prop := ∀ x ∈ s, 0 ≤ x

instance (s : List Int) : Decidable (sortedDesc s) :=
  inferInstanceAs (Decidable (List.Sorted (· ≥ ·) s))

instance (s : List Int) : Decidable (nonnegSizes s) :=
  inferInstanceAs (Decidable (∀ x ∈ s, 0 ≤ x))

/-- `x` is the sum of some sub-multiset of `s`. -/
def achievable (s : List Int) (x : Int) : Prop :=
  ∃ t : List Int, t.Sublist s ∧ t.sum = x

/-!  ### The `Pack::nosum` algorithm

Direct transcription of `propagate.hpp` lines 173-209.  `n` always
denotes `s.card()-1`, computed as `(s.length : Int) - 1`.
-/

/-- The initial loop of `Pack::nosum`:
`while (sc + s[n-kp] < a) { sc += s[n-kp]; kp++; }`. -/
def nosumInit (s : List Int) (a : Int) : Nat → Int → Int → Option (Int × Int)
  | 0, _, _ => none
  | fuel+1, sc, kp =>
    match getI s ((s.length : Int) - 1 - kp) with
    | none => none
    | some x =>
      if sc + x < a then nosumInit s a fuel (sc + x) (kp + 1) else some (sc, kp)

/-- The innermost loop of `Pack::nosum`:
`while (sa + sc >= a) { kp--; sc -= s[n-kp]; sb += s[n-kp] - s[n-kp-k-1]; }`.
State is `(kp, sb, sc)`; `k` and `sa` are fixed during this loop. -/
def nosumInner (s : List Int) (a k sa : Int) :
    Nat → Int → Int → Int → Option (Int × Int × Int)
  | 0, _, _, _ => none
  | fuel+1, kp, sb, sc =>
    if a ≤ sa + sc then
      match getI s ((s.length : Int) - 1 - (kp - 1)),
            getI s ((s.length : Int) - 1 - (kp - 1) - k - 1) with
      | some y, some z => nosumInner s a k sa fuel (kp - 1) (sb + y - z) (sc - y)
      | _, _ => none
    else some (kp, sb, sc)

/-- The main loop of `Pack::nosum`:
`while ((sa < a) && (sb <= b)) { sa += s[k++]; if (sa < a) { kp--;
sb += s[n-kp]; sc -= s[n-kp]; <inner loop> } }`, followed by
`ap = sa + sc; bp = sb; return sa < a;`.
State is `(k, kp, sa, sb, sc)`, result `(returned-bool, ap, bp)`. -/
def nosumMain (s : List Int) (a b : Int) :
    Nat → Int → Int → Int → Int → Int → Option (Bool × Int × Int)
  | 0, _, _, _, _, _ => none
  | fuel+1, k, kp, sa, sb, sc =>
    if sa < a ∧ sb ≤ b then
      match getI s k with
      | none => none
      | some x =>
        if sa + x < a then
          match getI s ((s.length : Int) - 1 - (kp - 1)) with
          | none => none
          | some y =>
            match nosumInner s a (k + 1) (sa + x) (s.length + 2)
                (kp - 1) (sb + y) (sc - y) with
            | none => none
            | some (kp2, sb2, sc2) =>
              nosumMain s a b fuel (k + 1) kp2 (sa + x) sb2 sc2
        else nosumMain s a b fuel (k + 1) kp (sa + x) sb sc
    else some (decide (sa < a), sa + sc, sb)

/-- The four-argument `Pack::nosum(s, a, b, ap, bp)`.  The result is
`some (r, out)` where `r` is the returned boolean and `out = some (ap, bp)`
exactly when the reference parameters were written. -/
def nosum4 (s : List Int) (a b : Int) : Option (Bool × Option (Int × Int)) :=
  if a ≤ 0 ∨ s.sum ≤ b then some (false, none)
  else
    match nosumInit s a (s.length + 2) 0 0 with
    | none => none
    | some (sc, kp) =>
      match getI s ((s.length : Int) - 1 - kp) with
      | none => none
      | some x =>
        match nosumMain s a b (s.length + 2) 0 kp 0 x sc with
        | none => none
        | some (r, ap, bp) => some (r, some (ap, bp))

/-- The two-argument overload `Pack::nosum(s, a, b)`: same decision,
`ap`/`bp` discarded. -/
def nosum2 (s : List Int) (a b : Int) : Option Bool :=
  (nosum4 s a b).map Prod.fst

/-!  ### `SizeSet` and `SizeSetMinusOne` -/

/-- The loop of `SizeSetMinusOne::minus`:
`do p++; while (s[p] > s0);` starting from cursor `p`. -/
def minusLoop (s : List Int) (v : Int) : Nat → Int → Option Int
  | 0, _ => none
  | fuel+1, p =>
    match getI s (p + 1) with
    | none => none
    | some x => if v < x then minusLoop s v fuel (p + 1) else some (p + 1)

/-- `SizeSetMinusOne::minus(v)`: advances the cursor from `p` to the next
position holding a value `≤ v`. -/
def minus (s : List Int) (p v : Int) : Option Int :=
  minusLoop s v (s.length + 1) p

/-- Folding a sequence of `minus` calls from the initial cursor `p = -1`. -/
def runMinus (s : List Int) (vs : List Int) : Option Int :=
  vs.foldlM (fun p v => minus s p v) (-1)

/-- `SizeSetMinusOne::card()`: `return n - 1;`. -/
def ssmoCard (s : List Int) : Int := (s.length : Int) - 1

/-- `SizeSetMinusOne::total()`: `return t - s[p];`. -/
def ssmoTotal (s : List Int) (p : Int) : Int := s.sum - ent s p.toNat

/-- `SizeSetMinusOne::operator[](i)`: `return s[(i < p) ? i : i+1];`. -/
def ssmoGet (s : List Int) (p : Int) (i : Nat) : Int :=
  if (i : Int) < p then ent s i else ent s (i + 1)

/-!  ### The `Pack` propagator state (construction and cloning) -/

/-- An item: a bin-assignment view (abstracted to an identifier) paired
with a fixed size. -/
structure Item where
  bin : Int
  size : Int
deriving Repr, DecidableEq

/-- `Pack` propagator state: bin capacity views `l`, items `bs`, cached
total size `t`. -/
structure Pack where
  l : List Int
  bs : List Item
  t : Int
deriving Repr, DecidableEq

/-- The posting constructor `Pack::Pack(home, l0, bs0)`: stores the arrays
and accumulates `t += bs[i].size()` over all items starting from `t = 0`. -/
def mkPack (l : List Int) (bs : List Item) : Pack :=
  { l := l, bs := bs, t := bs.foldl (fun acc i => acc + i.size) 0 }

/-- The cloning constructor `Pack::Pack(home, p)`: copies `t` from the
source propagator without recomputation. -/
def clonePack (p : Pack) : Pack :=
  { l := p.l, bs := p.bs, t := p.t }

/-!  ### The dual-feasibility lower-bound framework -/

/-- A closed integer interval of valid `λ` values. -/
structure LambdaRange where
  min : Int
  max : Int
deriving Repr, DecidableEq

/-- Modelled from the spec: `ceil_div_pp` is defined in a Gecode support
header that is not among the provided sources; the spec states that
divisions are ceiling-divisions on nonnegative operands.  The standard
definition is `(x + y - 1) / y` with C++ (truncated) division. -/
def ceil_div_pp (x y : Int) : Int := (x + y - 1).tdiv y

/-- `Pack::fCCM1`. -/
def fCCM1 (w l c : Int) : Int :=
  let c0 : Int := if c < 2 * w then 1 else 0
  let c1 : Int := if 2 * w = c then 1 else 0
  let c2 : Int := if 2 * w < c then 1 else 0
  let v0 : Int := 2 * (c.tdiv l - (c - w).tdiv l)
  let v1 : Int := c.tdiv l
  let v2 : Int := 2 * (w.tdiv l)
  c0 * v0 + c1 * v1 + c2 * v2

/-- `Pack::fMT`. -/
def fMT (w l c : Int) : Int :=
  let c0 : Int := if w < l then 1 else 0
  let c1 : Int := if l ≤ w ∧ w ≤ c - l then 1 else 0
  let c2 : Int := if c - l < w then 1 else 0
  let v0 : Int := 0
  let v1 : Int := w
  let v2 : Int := c
  c0 * v0 + c1 * v1 + c2 * v2

/-- `Pack::fBJ1`. -/
def fBJ1 (w l c : Int) : Int :=
  let p : Int := l - c.tmod l
  let c0 : Int := if w.tmod l ≤ c.tmod l then 1 else 0
  let c1 : Int := if c.tmod l < w.tmod l then 1 else 0
  let v0 : Int := (w.tdiv l) * p
  let v1 : Int := (w.tdiv l) * p + w.tmod l - c.tmod l
  c0 * v0 + c1 * v1

/-- `Pack::fVB2Base`. -/
def fVB2Base (w l c : Int) : Int :=
  let v : Int := ceil_div_pp (l * w) c
  if 0 < v then v - 1 else 0

/-- `Pack::fVB2`. -/
def fVB2 (w l c : Int) : Int :=
  let c0 : Int := if c < 2 * w then 1 else 0
  let c1 : Int := if 2 * w = c then 1 else 0
  let c2 : Int := if 2 * w < c then 1 else 0
  let t0 : Int := fVB2Base c l c
  let t1 : Int := fVB2Base w l c
  let t2 : Int := fVB2Base (c - w) l c
  let v0 : Int := 2 * t0 - 2 * t2
  let v1 : Int := t0
  let v2 : Int := 2 * t1
  c0 * v0 + c1 * v1 + c2 * v2

/-- `Pack::fFS1`. -/
def fFS1 (w l c : Int) : Int :=
  let c0 : Int := if (w * (l + 1)).tmod c = 0 then 1 else 0
  let c1 : Int := if (w * (l + 1)).tmod c ≠ 0 then 1 else 0
  let v0 : Int := w * l
  let v1 : Int := ((w * (l + 1)).tdiv c) * c
  c0 * v0 + c1 * v1

/-- `Pack::fRAD2Base`. -/
def fRAD2Base (w l c : Int) : Int :=
  let c0 : Int := if w < l then 1 else 0
  let c1 : Int := if l ≤ w ∧ w ≤ c - 2 * l then 1 else 0
  let c2 : Int := if c - 2 * l < w ∧ w < 2 * l then 1 else 0
  let v0 : Int := 0
  let v1 : Int := c.tdiv 3
  let v2 : Int := c.tdiv 2
  c0 * v0 + c1 * v1 + c2 * v2

/-- `Pack::fRAD2`. -/
def fRAD2 (w l c : Int) : Int :=
  let c0 : Int := if w < 2 * l then 1 else 0
  let c1 : Int := if 2 * l ≤ w then 1 else 0
  let v0 : Int := fRAD2Base w l c
  let v1 : Int := c - fRAD2Base (c - w) l c
  c0 * v0 + c1 * v1

/-- `Pack::lCCM1`. -/
def lCCM1 (c : Int) : LambdaRange := ⟨1, c.tdiv 2⟩

/-- `Pack::lMT`. -/
def lMT (c : Int) : LambdaRange := ⟨0, c.tdiv 2⟩

/-- `Pack::lBJ1`. -/
def lBJ1 (c : Int) : LambdaRange := ⟨1, c⟩

/-- `Pack::lVB2`. -/
def lVB2 (c : Int) : LambdaRange := ⟨2, c⟩

/-- `Pack::lFS1`. -/
def lFS1 (_c : Int) : LambdaRange := ⟨1, 100⟩

/-- `Pack::lRAD2`. -/
def lRAD2 (c : Int) : LambdaRange := ⟨c.tdiv 4 + 1, c.tdiv 3⟩

/-- The six provided transforms, as a closed enumeration. -/
inductive TransformKind where
  | CCM1 | MT | BJ1 | VB2 | FS1 | RAD2
deriving Repr, DecidableEq

/-- The transform function of each kind. -/
def dffF : TransformKind → (Int → Int → Int → Int)
  | .CCM1 => fCCM1
  | .MT => fMT
  | .BJ1 => fBJ1
  | .VB2 => fVB2
  | .FS1 => fFS1
  | .RAD2 => fRAD2

/-- The `λ`-range function of each kind. -/
def dffL : TransformKind → (Int → LambdaRange)
  | .CCM1 => lCCM1
  | .MT => lMT
  | .BJ1 => lBJ1
  | .VB2 => lVB2
  | .FS1 => lFS1
  | .RAD2 => lRAD2

/-- `std::numeric_limits<int>::max()` for the 32-bit working integer type. -/
def intMax : Int := 2147483647

/-- `Pack::sanitizeLambdaRange`. -/
def sanitizeLambdaRange (lambdaRange : LambdaRange)
    (nNotZeroWeights maxWeight : Int) : LambdaRange :=
  if nNotZeroWeights * maxWeight ≠ 0 then
    ⟨lambdaRange.min,
      min (intMax.tdiv (nNotZeroWeights * maxWeight)) lambdaRange.max⟩
  else ⟨0, -1⟩

/-- `Pack::calcDffLowerboundSingleLambda<f>`: sum the transformed weights,
transform the capacity, and take the ceiling quotient. -/
def calcDffLowerboundSingleLambda (f : Int → Int → Int → Int)
    (weights : List Int) (capacity lambda : Int) : Int :=
  ceil_div_pp (weights.foldl (fun acc w => acc + f w lambda capacity) 0)
    (f capacity lambda capacity)

/-- The `for (lambda = min+lStep; lambda < max; lambda += lStep)` loop of
`Pack::calcDffLowerbound`, accumulating `fLowerbound` via `max`. -/
def dffLoop (f : Int → Int → Int → Int) (weights : List Int)
    (capacity lmax lStep : Int) : Nat → Int → Int → Option Int
  | 0, _, _ => none
  | fuel+1, lambda, acc =>
    if lambda < lmax then
      dffLoop f weights capacity lmax lStep fuel (lambda + lStep)
        (max acc (calcDffLowerboundSingleLambda f weights capacity lambda))
    else some acc

/-- The sequence of `λ` values visited by the sampling loop (same control
structure as `dffLoop`). -/
def sampleLoop (lmax lStep : Int) : Nat → Int → Option (List Int)
  | 0, _ => none
  | fuel+1, lambda =>
    if lambda < lmax then
      (sampleLoop lmax lStep fuel (lambda + lStep)).map (lambda :: ·)
    else some []

/-- The (possibly sanitized) λ-range used by `Pack::calcDffLowerbound`
(line `lambdaRange = sanitize ? sanitizeLambdaRange(...) : lambdaRange`). -/
def dffRange (l : Int → LambdaRange) (capacity nNotZeroWeights maxWeight : Int)
    (sanitize : Bool) : LambdaRange :=
  if sanitize then sanitizeLambdaRange (l capacity) nNotZeroWeights maxWeight
  else l capacity

/-- The loop stride of `Pack::calcDffLowerbound`:
`lStep = ceil_div_pp(lambdaRange.max - lambdaRange.min + 1, nLambdaSamples + 1)`. -/
def dffStep (nLambdaSamples : Nat) (l : Int → LambdaRange)
    (capacity nNotZeroWeights maxWeight : Int) (sanitize : Bool) : Int :=
  let r := dffRange l capacity nNotZeroWeights maxWeight sanitize
  ceil_div_pp (r.max - r.min + 1) ((nLambdaSamples : Int) + 1)

/-- `Pack::calcDffLowerbound<f, l>`.  The sample count `nLambdaSamples` is
declared in a header not among the provided sources, so it is kept as an
explicit parameter; the loop carries fuel, with `none` modelling
non-termination. -/
def calcDffLowerbound (nLambdaSamples : Nat) (f : Int → Int → Int → Int)
    (l : Int → LambdaRange) (weights : List Int)
    (capacity nNotZeroWeights maxWeight : Int) (sanitize : Bool) : Option Int :=
  let r := dffRange l capacity nNotZeroWeights maxWeight sanitize
  let lStep := dffStep nLambdaSamples l capacity nNotZeroWeights maxWeight sanitize
  dffLoop f weights capacity r.max lStep ((r.max - r.min).toNat + 2) (r.min + lStep) 0

/-- `λ` lies strictly inside a λ-range (the condition satisfied by every
sampled `λ`, by `calcDff_sampling`). -/
def strictlyInside (lam : Int) (r : LambdaRange) : Prop :=
  r.min < lam ∧ lam < r.max

/-!  ## Basic facts about entries and segment sums -/

theorem ent_cons_succ (x : Int) (tl : List Int) (k : Nat) :
    ent (x :: tl) (k + 1) = ent tl k := rfl

theorem ent_cons_zero (x : Int) (tl : List Int) : ent (x :: tl) 0 = x := rfl

theorem ent_eq_getElem {s : List Int} {i : Nat} (h : i < s.length) :
    ent s i = s[i] := by
  unfold ent
  rw [List.getD_eq_getElem?_getD, List.getElem?_eq_getElem h]
  rfl

theorem ent_eq_zero {s : List Int} {i : Nat} (h : s.length ≤ i) : ent s i = 0 := by
  unfold ent
  rw [List.getD_eq_getElem?_getD, List.getElem?_eq_none h]
  rfl

theorem ent_nonneg {s : List Int} (hnn : nonnegSizes s) (i : Nat) : 0 ≤ ent s i := by
  rcases lt_or_le i s.length with h | h
  · rw [ent_eq_getElem h]
    exact hnn _ (List.getElem_mem h)
  · rw [ent_eq_zero h]

theorem ent_antitone {s : List Int} (hs : sortedDesc s) (hnn : nonnegSizes s)
    {i j : Nat} (hij : i ≤ j) : ent s j ≤ ent s i := by
  rcases eq_or_lt_of_le hij with rfl | hlt
  · exact le_refl _
  rcases lt_or_le j s.length with hj | hj
  · have hi : i < s.length := lt_trans hlt hj
    rw [ent_eq_getElem hi, ent_eq_getElem hj]
    exact (List.pairwise_iff_getElem.mp hs) i j hi hj hlt
  · rw [ent_eq_zero hj]
    exact ent_nonneg hnn i

theorem seg_zero (s : List Int) (d : Nat) : seg s d 0 = 0 := by simp [seg]

theorem seg_one (s : List Int) (d : Nat) : seg s d 1 = ent s d := by simp [seg]

theorem seg_succ (s : List Int) (d w : Nat) :
    seg s d (w + 1) = seg s d w + ent s (d + w) := by
  unfold seg
  rw [Finset.sum_range_succ]

theorem seg_succ_left (s : List Int) (d w : Nat) :
    seg s d (w + 1) = ent s d + seg s (d + 1) w := by
  unfold seg
  rw [Finset.sum_range_succ', add_comm, Nat.add_zero]
  congr 1
  exact Finset.sum_congr rfl fun k _ => by rw [show d + (k + 1) = d + 1 + k by omega]

theorem seg_split (s : List Int) (d w1 w2 : Nat) :
    seg s d (w1 + w2) = seg s d w1 + seg s (d + w1) w2 := by
  induction w2 with
  | zero => simp [seg_zero]
  | succ w ih =>
    rw [← Nat.add_assoc, seg_succ, ih, seg_succ, show d + w1 + w = d + (w1 + w) by omega]
    ring

theorem seg_nonneg {s : List Int} (hnn : nonnegSizes s) (d w : Nat) : 0 ≤ seg s d w :=
  Finset.sum_nonneg fun _ _ => ent_nonneg hnn _

theorem seg_mono_width {s : List Int} (hnn : nonnegSizes s) (d : Nat) {w w' : Nat}
    (h : w ≤ w') : seg s d w ≤ seg s d w' := by
  obtain ⟨e, rfl⟩ := Nat.exists_eq_add_of_le h
  rw [seg_split]
  have := seg_nonneg hnn (d + w) e
  omega

theorem seg_anti_start {s : List Int} (hs : sortedDesc s) (hnn : nonnegSizes s)
    {d d' : Nat} (h : d' ≤ d) (w : Nat) : seg s d w ≤ seg s d' w :=
  Finset.sum_le_sum fun i _ => ent_antitone hs hnn (by omega)

theorem sum_eq_ent_range (s : List Int) :
    s.sum = ∑ i ∈ Finset.range s.length, ent s i := by
  induction s with
  | nil => simp
  | cons x tl ih =>
    rw [List.sum_cons, List.length_cons, Finset.sum_range_succ']
    simp only [ent_cons_succ, ent_cons_zero]
    rw [ih]
    ring

theorem sum_eq_seg (s : List Int) : s.sum = seg s 0 s.length := by
  rw [sum_eq_ent_range]
  unfold seg
  exact Finset.sum_congr rfl fun i _ => by rw [Nat.zero_add]

theorem sum_take (s : List Int) {k : Nat} (hk : k ≤ s.length) :
    (s.take k).sum = seg s 0 k := by
  rw [sum_eq_ent_range]
  have hlen : (s.take k).length = k := by
    rw [List.length_take]
    omega
  rw [hlen]
  refine Finset.sum_congr rfl fun i hi => ?_
  rw [Finset.mem_range] at hi
  unfold ent
  rw [List.getD_eq_getElem?_getD, List.getD_eq_getElem?_getD, List.getElem?_take,
    if_pos hi, Nat.zero_add]

theorem sum_drop_take (s : List Int) {d w : Nat} (h : d + w ≤ s.length) :
    ((s.drop d).take w).sum = seg s d w := by
  rw [sum_eq_ent_range]
  have hlen : ((s.drop d).take w).length = w := by
    rw [List.length_take, List.length_drop]
    omega
  rw [hlen]
  refine Finset.sum_congr rfl fun i hi => ?_
  rw [Finset.mem_range] at hi
  unfold ent
  rw [List.getD_eq_getElem?_getD, List.getD_eq_getElem?_getD, List.getElem?_take,
    if_pos hi, List.getElem?_drop]

theorem sum_drop (s : List Int) (d : Nat) :
    (s.drop d).sum = seg s d (s.length - d) := by
  rw [sum_eq_ent_range, List.length_drop]
  refine Finset.sum_congr rfl fun i _ => ?_
  unfold ent
  rw [List.getD_eq_getElem?_getD, List.getD_eq_getElem?_getD, List.getElem?_drop]

theorem take_append_drop_sublist (s : List Int) (k j : Nat) (hkj : k ≤ j) :
    (s.take k ++ s.drop j).Sublist s := by
  conv_rhs => rw [← List.take_append_drop k s]
  refine List.Sublist.append (List.Sublist.refl _) ?_
  have : s.drop j = (s.drop k).drop (j - k) := by
    rw [List.drop_drop, show k + (j - k) = j by omega]
  rw [this]
  exact List.drop_sublist _ _

theorem drop_take_sublist (s : List Int) (d w : Nat) :
    ((s.drop d).take w).Sublist s :=
  ((s.drop d).take_sublist w).trans (s.drop_sublist d)

/-!  ## C9: the cached total item size -/

theorem foldl_add_size (bs : List Item) (c : Int) :
    bs.foldl (fun acc i => acc + i.size) c = c + (bs.map Item.size).sum := by
  induction bs generalizing c with
  | nil => simp
  | cons x tl ih =>
    rw [List.foldl_cons, ih, List.map_cons, List.sum_cons]
    ring

/-- **C9**: after construction, the cached field `t` of a `Pack` equals the
sum of the item sizes, and the clone constructor copies `t` from the source
propagator, so the clone's `t` equals the original's `t`. -/
theorem pack_total (l : List Int) (bs : List Item) (p : Pack) :
    (mkPack l bs).t = (bs.map Item.size).sum ∧ (clonePack p).t = p.t := by
  refine ⟨?_, rfl⟩
  show bs.foldl (fun acc i => acc + i.size) 0 = _
  rw [foldl_add_size]
  ring

/-!  ## C4: the trivial rule of `nosum` -/

/-- **C4**: if `a ≤ 0` or `b ≥ total(S)`, the four-argument `Pack::nosum`
returns `false` immediately and does not write the output parameters
`ap`, `bp`. -/
theorem nosum_trivial (s : List Int) (a b : Int) (h : a ≤ 0 ∨ s.sum ≤ b) :
    nosum4 s a b = some (false, none) := by
  unfold nosum4
  rw [if_pos h]

/-- Witness for `nosum_trivial` at `S = [7,6]`, `a = 0`, `b = 5`. -/
theorem nosum_trivial_check :
    nosum4 [7, 6] 0 5 = some (false, none) :=
  nosum_trivial [7, 6] 0 5 (Or.inl (by decide))

/-!  ## C7: sanitization of the λ-range -/

/-- **C7**: `sanitizeLambdaRange` keeps the lower end of the range (whenever
the nonzero-weight count and maximal weight do not multiply to zero), and its
returned upper end `lMax` guarantees `nNotZeroWeights * maxWeight * λ ≤ intMax`
for every `λ ≤ lMax`; when there are no nonzero-weight items the result is the
empty range `[0, -1]`. -/
theorem sanitize_safe (r : LambdaRange) (nNZ maxW : Int)
    (h1 : 0 ≤ nNZ) (h2 : 0 ≤ maxW) :
    (∀ lam ≤ (sanitizeLambdaRange r nNZ maxW).max, nNZ * maxW * lam ≤ intMax) ∧
    (nNZ * maxW ≠ 0 → (sanitizeLambdaRange r nNZ maxW).min = r.min) ∧
    (nNZ = 0 → sanitizeLambdaRange r nNZ maxW = ⟨0, -1⟩) := by
  unfold sanitizeLambdaRange
  by_cases h : nNZ * maxW = 0
  · rw [if_neg (not_not_intro h)]
    refine ⟨?_, fun hc => absurd h hc, fun _ => rfl⟩
    intro lam _
    rw [h, zero_mul]
    norm_num [intMax]
  · rw [if_pos h]
    have hprod : 0 < nNZ * maxW := lt_of_le_of_ne (mul_nonneg h1 h2) (Ne.symm h)
    refine ⟨?_, fun _ => rfl, fun h0 => absurd (by rw [h0, zero_mul]) h⟩
    intro lam hlam
    have h3 : lam ≤ intMax.tdiv (nNZ * maxW) :=
      le_trans hlam (min_le_left _ _)
    have h5 : intMax.tdiv (nNZ * maxW) = intMax / (nNZ * maxW) :=
      Int.tdiv_eq_ediv (by norm_num [intMax]) (le_of_lt hprod)
    calc nNZ * maxW * lam ≤ nNZ * maxW * (intMax.tdiv (nNZ * maxW)) :=
          mul_le_mul_of_nonneg_left h3 (le_of_lt hprod)
      _ = intMax / (nNZ * maxW) * (nNZ * maxW) := by rw [h5]; ring
      _ ≤ intMax := Int.ediv_mul_le _ (ne_of_gt hprod)

/-- Witness for `sanitize_safe` at the range `[1,100]` with one item of
weight one. -/
theorem sanitize_safe_check :
    (∀ lam ≤ (sanitizeLambdaRange ⟨1, 100⟩ 1 1).max, (1:Int) * 1 * lam ≤ intMax) ∧
    ((1:Int) * 1 ≠ 0 → (sanitizeLambdaRange ⟨1, 100⟩ 1 1).min = (1:Int)) ∧
    ((1:Int) = 0 → sanitizeLambdaRange ⟨1, 100⟩ 1 1 = ⟨0, -1⟩) :=
  sanitize_safe ⟨1, 100⟩ 1 1 (by decide) (by decide)

/-!  ## C6: the λ sampling performed by `calcDffLowerbound` -/

theorem tdiv_ge_self_of_nonpos {e m : Int} (he : e ≤ 0) (hm : 1 ≤ m) :
    e ≤ e.tdiv m := by
  have h1 : e.tdiv m = -((-e).tdiv m) := by rw [← Int.neg_tdiv, neg_neg]
  have h2 : (-e).tdiv m = (-e) / m := Int.tdiv_eq_ediv (by omega) (by omega)
  have h3 : (-e) / m ≤ -e := Int.ediv_le_self m (by omega)
  omega

theorem ceil_div_pp_ge_of_le_one {D m : Int} (hD : D ≤ 1) (hm : 1 ≤ m) :
    D - 1 ≤ ceil_div_pp D m := by
  unfold ceil_div_pp
  rcases le_or_lt 0 (D + m - 1) with h | h
  · have := Int.tdiv_nonneg h (show (0:Int) ≤ m by omega)
    omega
  · have := tdiv_ge_self_of_nonpos (show D + m - 1 ≤ 0 by omega) hm
    omega

theorem ceil_div_pp_pos_of_two_le {D m : Int} (hD : 2 ≤ D) (hm : 1 ≤ m) :
    1 ≤ ceil_div_pp D m := by
  unfold ceil_div_pp
  rw [Int.tdiv_eq_ediv (by omega) (by omega)]
  rw [Int.le_ediv_iff_mul_le (show (0:Int) < m by omega)]
  omega

theorem sampleLoop_total {lmax lStep : Int} (hstep : 1 ≤ lStep) :
    ∀ fuel : Nat, ∀ lambda : Int, (lmax - lambda).toNat < fuel →
    ∃ L, sampleLoop lmax lStep fuel lambda = some L := by
  intro fuel
  induction fuel with
  | zero => intro lambda h; omega
  | succ n ih =>
    intro lambda h
    by_cases hc : lambda < lmax
    · obtain ⟨L, hL⟩ := ih (lambda + lStep) (by omega)
      refine ⟨lambda :: L, ?_⟩
      rw [sampleLoop, if_pos hc, hL]
      rfl
    · exact ⟨[], by rw [sampleLoop, if_neg hc]⟩

theorem sampleLoop_empty {lmax lStep : Int} (fuel : Nat) (lambda : Int)
    (hc : ¬ lambda < lmax) :
    sampleLoop lmax lStep (fuel + 1) lambda = some [] := by
  rw [sampleLoop, if_neg hc]

theorem sampleLoop_bounds {lmax lStep : Int} (hstep : 0 ≤ lStep) :
    ∀ fuel lambda L, sampleLoop lmax lStep fuel lambda = some L →
    ∀ x ∈ L, lambda ≤ x ∧ x < lmax := by
  intro fuel
  induction fuel with
  | zero => intro lambda L h; rw [sampleLoop] at h; cases h
  | succ n ih =>
    intro lambda L h x hx
    rw [sampleLoop] at h
    by_cases hc : lambda < lmax
    · rw [if_pos hc] at h
      cases hrec : sampleLoop lmax lStep n (lambda + lStep) with
      | none => rw [hrec] at h; cases h
      | some L2 =>
        rw [hrec] at h
        simp only [Option.map_some'] at h  -- hmm name
        cases h
        rcases List.mem_cons.mp hx with rfl | hx2
        · exact ⟨le_refl _, hc⟩
        · have := ih (lambda + lStep) L2 hrec x hx2
          constructor
          · omega
          · exact this.2
    · rw [if_neg hc] at h
      cases h
      cases hx

theorem sampleLoop_get {lmax lStep : Int} :
    ∀ fuel lambda L, sampleLoop lmax lStep fuel lambda = some L →
    ∀ i : Nat, i < L.length → L.getD i 0 = lambda + (i : Int) * lStep := by
  intro fuel
  induction fuel with
  | zero => intro lambda L h; rw [sampleLoop] at h; cases h
  | succ n ih =>
    intro lambda L h i hi
    rw [sampleLoop] at h
    by_cases hc : lambda < lmax
    · rw [if_pos hc] at h
      cases hrec : sampleLoop lmax lStep n (lambda + lStep) with
      | none => rw [hrec] at h; cases h
      | some L2 =>
        rw [hrec] at h
        simp only [Option.map_some'] at h
        cases h
        cases i with
        | zero => simp
        | succ j =>
          have hj : j < L2.length := by
            simpa using hi
          have := ih (lambda + lStep) L2 hrec j hj
          show L2.getD j 0 = _
          rw [this]
          push_cast
          ring
    · rw [if_neg hc] at h
      cases h
      cases hi

theorem dffLoop_eq_foldl (f : Int → Int → Int → Int) (ws : List Int) (c : Int)
    {lmax lStep : Int} :
    ∀ fuel lambda acc L, sampleLoop lmax lStep fuel lambda = some L →
    dffLoop f ws c lmax lStep fuel lambda acc =
      some (L.foldl (fun a lam => max a (calcDffLowerboundSingleLambda f ws c lam)) acc) := by
  intro fuel
  induction fuel with
  | zero => intro lambda acc L h; rw [sampleLoop] at h; cases h
  | succ n ih =>
    intro lambda acc L h
    rw [sampleLoop] at h
    rw [dffLoop]
    by_cases hc : lambda < lmax
    · rw [if_pos hc] at h ⊢
      cases hrec : sampleLoop lmax lStep n (lambda + lStep) with
      | none => rw [hrec] at h; cases h
      | some L2 =>
        rw [hrec] at h
        simp only [Option.map_some'] at h
        cases h
        rw [ih (lambda + lStep) _ L2 hrec]
        rfl
    · rw [if_neg hc] at h ⊢
      cases h
      rfl

theorem foldl_max_spec (h : Int → Int) (L : List Int) (acc : Int) :
    acc ≤ L.foldl (fun a x => max a (h x)) acc ∧
    (∀ x ∈ L, h x ≤ L.foldl (fun a x => max a (h x)) acc) ∧
    (L.foldl (fun a x => max a (h x)) acc = acc ∨
      ∃ x ∈ L, L.foldl (fun a x => max a (h x)) acc = h x) := by
  induction L generalizing acc with
  | nil => exact ⟨le_refl _, fun x hx => absurd hx (List.not_mem_nil x), Or.inl rfl⟩
  | cons y tl ih =>
    obtain ⟨ih1, ih2, ih3⟩ := ih (max acc (h y))
    rw [List.foldl_cons]
    refine ⟨le_trans (le_max_left _ _) ih1, ?_, ?_⟩
    · intro x hx
      rcases List.mem_cons.mp hx with rfl | hx2
      · exact le_trans (le_max_right _ _) ih1
      · exact ih2 x hx2
    · rcases ih3 with heq | ⟨x, hx, heq⟩
      · rcases max_choice acc (h y) with hm | hm
        · exact Or.inl (by rw [heq, hm])
        · exact Or.inr ⟨y, List.mem_cons_self _ _, by rw [heq, hm]⟩
      · exact Or.inr ⟨x, List.mem_cons_of_mem _ hx, heq⟩

/-- **C6**: `calcDffLowerbound` terminates and evaluates the per-λ bound only
on a list `L` of evenly spaced λ values (an arithmetic progression with the
computed stride) that all lie strictly inside the (sanitized) range; the
result is the maximum of the per-λ bounds over `L` together with the initial
value 0, and is 0 when no λ is sampled. -/
theorem calcDff_sampling (nS : Nat) (f : Int → Int → Int → Int)
    (l : Int → LambdaRange) (ws : List Int) (c nNZ mW : Int) (san : Bool) :
    ∃ L : List Int, ∃ res : Int,
      calcDffLowerbound nS f l ws c nNZ mW san = some res ∧
      (∀ i : Nat, i < L.length →
        L.getD i 0 = (dffRange l c nNZ mW san).min +
          ((i : Int) + 1) * dffStep nS l c nNZ mW san) ∧
      (∀ x ∈ L, (dffRange l c nNZ mW san).min < x ∧ x < (dffRange l c nNZ mW san).max) ∧
      res = L.foldl (fun a lam => max a (calcDffLowerboundSingleLambda f ws c lam)) 0 ∧
      (L = [] → res = 0) ∧
      (∀ x ∈ L, calcDffLowerboundSingleLambda f ws c x ≤ res) ∧
      (res = 0 ∨ ∃ x ∈ L, res = calcDffLowerboundSingleLambda f ws c x) := by
  have hcalc : calcDffLowerbound nS f l ws c nNZ mW san =
      dffLoop f ws c (dffRange l c nNZ mW san).max (dffStep nS l c nNZ mW san)
        (((dffRange l c nNZ mW san).max - (dffRange l c nNZ mW san).min).toNat + 2)
        ((dffRange l c nNZ mW san).min + dffStep nS l c nNZ mW san) 0 := rfl
  set r := dffRange l c nNZ mW san with hr
  set st := dffStep nS l c nNZ mW san with hst
  have hst_eq : st = ceil_div_pp (r.max - r.min + 1) ((nS : Int) + 1) := rfl
  have hm1 : (1 : Int) ≤ (nS : Int) + 1 := by omega
  by_cases hc : r.min + st < r.max
  · have hst1 : 1 ≤ st := by
      by_contra hle
      push_neg at hle
      rcases le_or_lt (r.max - r.min + 1) 1 with hD | hD
      · have := ceil_div_pp_ge_of_le_one hD hm1
        rw [← hst_eq] at this
        omega
      · have := @ceil_div_pp_pos_of_two_le (r.max - r.min + 1) ((nS : Int) + 1)
          (by omega) hm1
        rw [← hst_eq] at this
        omega
    obtain ⟨L, hL⟩ := @sampleLoop_total r.max st hst1 ((r.max - r.min).toNat + 2)
      (r.min + st) (by omega)
    refine ⟨L, _, by rw [hcalc, dffLoop_eq_foldl f ws c _ _ _ L hL], ?_, ?_, rfl, ?_, ?_, ?_⟩
    · intro i hi
      rw [sampleLoop_get _ _ L hL i hi]
      ring
    · intro x hx
      have := sampleLoop_bounds (by omega) _ _ L hL x hx
      exact ⟨by omega, this.2⟩
    · intro hnil
      rw [hnil]
      rfl
    · exact (foldl_max_spec _ L 0).2.1
    · rcases (foldl_max_spec (calcDffLowerboundSingleLambda f ws c) L 0).2.2 with h0 | hx
      · exact Or.inl h0
      · exact Or.inr hx
  · have hL : sampleLoop r.max st (((r.max - r.min).toNat + 1) + 1) (r.min + st) =
        some [] := sampleLoop_empty _ _ hc
    refine ⟨[], 0, ?_, ?_, ?_, rfl, fun _ => rfl, ?_, Or.inl rfl⟩
    · rw [hcalc]
      have := dffLoop_eq_foldl f ws c (((r.max - r.min).toNat + 1) + 1) (r.min + st) 0 [] hL
      simpa using this
    · intro i hi
      simp at hi
    · intro x hx
      cases hx
    · intro x hx
      cases hx

/-!  ## C8: division-by-zero guarding in the transforms -/

theorem tdiv_nonpos_of_nonpos {c m : Int} (hc : c ≤ 0) (hm : 0 ≤ m) :
    c.tdiv m ≤ 0 := by
  have h1 : c.tdiv m = -((-c).tdiv m) := by rw [← Int.neg_tdiv, neg_neg]
  have h2 : 0 ≤ (-c).tdiv m := Int.tdiv_nonneg (by omega) hm
  omega

theorem tdiv_one_le {x m : Int} (hm : 0 < m) (hx : m ≤ x) : 1 ≤ x.tdiv m := by
  rw [Int.tdiv_eq_ediv (by omega) (by omega)]
  rw [Int.le_ediv_iff_mul_le hm]
  omega

theorem sanitize_inside {r : LambdaRange} {nNZ mW lam : Int}
    (h : strictlyInside lam (sanitizeLambdaRange r nNZ mW)) :
    strictlyInside lam r := by
  unfold strictlyInside at *
  unfold sanitizeLambdaRange at h
  by_cases hp : nNZ * mW = 0
  · rw [if_neg (not_not_intro hp)] at h
    have h1 : (0 : Int) < lam := h.1
    have h2 : lam < -1 := h.2
    omega
  · rw [if_pos hp] at h
    exact ⟨h.1, lt_of_lt_of_le h.2 (min_le_right _ _)⟩

theorem fCCM1_cap_ne {c lam : Int} (h1 : 1 < lam) (h2 : lam < c.tdiv 2) :
    fCCM1 c lam c ≠ 0 := by
  have hc0 : 0 < c := by
    by_contra hcle
    push_neg at hcle
    have := tdiv_nonpos_of_nonpos hcle (show (0:Int) ≤ 2 by norm_num)
    omega
  have hd2 : c.tdiv 2 = c / 2 := Int.tdiv_eq_ediv (by omega) (by norm_num)
  have hself : c / 2 ≤ c := Int.ediv_le_self 2 (by omega)
  have hdiv : 1 ≤ c.tdiv lam := tdiv_one_le (by omega) (by omega)
  simp only [fCCM1]
  rw [if_pos (show c < 2 * c by omega), if_neg (show ¬ 2 * c = c by omega),
    if_neg (show ¬ 2 * c < c by omega), sub_self, Int.zero_tdiv]
  omega

theorem fMT_cap_ne {c lam : Int} (h1 : 0 < lam) (h2 : lam < c.tdiv 2) :
    fMT c lam c ≠ 0 := by
  have hc0 : 0 < c := by
    by_contra hcle
    push_neg at hcle
    have := tdiv_nonpos_of_nonpos hcle (show (0:Int) ≤ 2 by norm_num)
    omega
  have hd2 : c.tdiv 2 = c / 2 := Int.tdiv_eq_ediv (by omega) (by norm_num)
  have hself : c / 2 ≤ c := Int.ediv_le_self 2 (by omega)
  simp only [fMT]
  rw [if_neg (show ¬ c < lam by omega),
    if_neg (show ¬ (lam ≤ c ∧ c ≤ c - lam) by omega),
    if_pos (show c - lam < c by omega)]
  omega

theorem fBJ1_cap_ne {c lam : Int} (h1 : 1 < lam) (h2 : lam < c) :
    fBJ1 c lam c ≠ 0 := by
  have hmod : c.tmod lam = c % lam := Int.tmod_eq_emod (by omega) (by omega)
  have hmlt : c % lam < lam := Int.emod_lt_of_pos c (by omega)
  have hmge : 0 ≤ c % lam := Int.emod_nonneg c (by omega)
  have hdiv : 1 ≤ c.tdiv lam := tdiv_one_le (by omega) (by omega)
  have hpos : 0 < c.tdiv lam * (lam - c.tmod lam) :=
    mul_pos (by omega) (by omega)
  simp only [fBJ1]
  rw [if_pos (le_refl (c.tmod lam)), if_neg (lt_irrefl (c.tmod lam))]
  omega

theorem ceil_div_pp_mul_cap {lam c : Int} (hc : 0 < c) (hl : 0 ≤ lam) :
    ceil_div_pp (lam * c) c = lam := by
  unfold ceil_div_pp
  have hmn : 0 ≤ lam * c := mul_nonneg hl (le_of_lt hc)
  rw [Int.tdiv_eq_ediv (by omega) (by omega)]
  rw [show lam * c + c - 1 = (c - 1) + lam * c by ring]
  rw [Int.add_mul_ediv_right _ _ (show c ≠ 0 by omega)]
  rw [Int.ediv_eq_zero_of_lt (by omega) (by omega)]
  ring

theorem fVB2_cap_ne {c lam : Int} (h1 : 2 < lam) (h2 : lam < c) :
    fVB2 c lam c ≠ 0 := by
  have hc : 0 < c := by omega
  have ht0 : fVB2Base c lam c = lam - 1 := by
    simp only [fVB2Base]
    rw [ceil_div_pp_mul_cap hc (by omega)]
    rw [if_pos (show (0:Int) < lam by omega)]
  have ht2 : fVB2Base (c - c) lam c = 0 := by
    simp only [fVB2Base]
    rw [sub_self, mul_zero]
    have hz : ceil_div_pp 0 c = 0 := by
      unfold ceil_div_pp
      rw [zero_add, Int.tdiv_eq_ediv (by omega) (by omega),
        Int.ediv_eq_zero_of_lt (by omega) (by omega)]
    rw [hz]
    rw [if_neg (show ¬ (0:Int) < 0 by omega)]
  simp only [fVB2]
  rw [if_pos (show c < 2 * c by omega), if_neg (show ¬ 2 * c = c by omega),
    if_neg (show ¬ 2 * c < c by omega), ht0, ht2]
  omega

theorem fFS1_cap_ne {c lam : Int} (hc : c ≠ 0) (h1 : 1 < lam) :
    fFS1 c lam c ≠ 0 := by
  have hmod : (c * (lam + 1)).tmod c = 0 := Int.mul_tmod_right c (lam + 1)
  have hne : c * lam ≠ 0 := mul_ne_zero hc (by omega)
  simp only [fFS1]
  rw [if_pos hmod, if_neg (not_not_intro hmod)]
  simp only [one_mul, zero_mul, add_zero]
  exact hne

theorem fRAD2_cap_ne {c lam : Int} (h1 : c.tdiv 4 + 1 < lam) (h2 : lam < c.tdiv 3) :
    fRAD2 c lam c ≠ 0 := by
  have hc : 0 < c := by
    by_contra hcle
    push_neg at hcle
    have e3 : c.tdiv 3 = -((-c).tdiv 3) := by rw [← Int.neg_tdiv, neg_neg]
    have e4 : c.tdiv 4 = -((-c).tdiv 4) := by rw [← Int.neg_tdiv, neg_neg]
    have f3 : (-c).tdiv 3 = (-c) / 3 := Int.tdiv_eq_ediv (by omega) (by norm_num)
    have f4 : (-c).tdiv 4 = (-c) / 4 := Int.tdiv_eq_ediv (by omega) (by norm_num)
    omega
  have e3 : c.tdiv 3 = c / 3 := Int.tdiv_eq_ediv (by omega) (by norm_num)
  have e4 : c.tdiv 4 = c / 4 := Int.tdiv_eq_ediv (by omega) (by norm_num)
  have hlam2 : ¬ (c < 2 * lam) := by omega
  have hbase : fRAD2Base (c - c) lam c = 0 := by
    simp only [fRAD2Base]
    rw [if_pos (show c - c < lam by omega),
      if_neg (show ¬ (lam ≤ c - c ∧ c - c ≤ c - 2 * lam) by omega),
      if_neg (show ¬ (c - 2 * lam < c - c ∧ c - c < 2 * lam) by omega)]
    ring
  simp only [fRAD2]
  rw [if_neg hlam2, if_pos (show 2 * lam ≤ c by omega), hbase]
  omega

/-- **C8 (amended)**: for each of the six provided transform/λ-range pairs,
every *nonzero* capacity `c`, and every `λ` strictly inside the sanitized
λ-range (the condition satisfied by every sampled `λ`), the transformed
capacity `f(c, λ, c)` is nonzero, so the ceiling division of
`calcDffLowerboundSingleLambda` does not divide by zero.  The original
claim, quantifying over *every* capacity, fails at capacity 0 for the FS1
pair: see `dff_divzero_cex`. -/
theorem dff_no_divzero (tk : TransformKind) (c nNZ mW lam : Int) (hc : c ≠ 0)
    (h : strictlyInside lam (sanitizeLambdaRange (dffL tk c) nNZ mW)) :
    dffF tk c lam c ≠ 0 := by
  have h' := sanitize_inside h
  cases tk with
  | CCM1 => exact fCCM1_cap_ne h'.1 h'.2
  | MT => exact fMT_cap_ne h'.1 h'.2
  | BJ1 => exact fBJ1_cap_ne h'.1 h'.2
  | VB2 => exact fVB2_cap_ne h'.1 h'.2
  | FS1 => exact fFS1_cap_ne hc h'.1
  | RAD2 => exact fRAD2_cap_ne h'.1 h'.2

/-- Witness for `dff_no_divzero`: CCM1 at capacity 10, one item of weight 1,
λ = 2 inside the sanitized range `[1, 5]`. -/
theorem dff_no_divzero_check : dffF TransformKind.CCM1 10 2 10 ≠ 0 :=
  dff_no_divzero TransformKind.CCM1 10 1 1 2 (by decide) ⟨by decide, by decide⟩

/-- Counterexample to **C8 as stated**: take the FS1 transform, capacity
`c = 0`, weight list `[1]` (so one nonzero weight of maximal size 1) and
sanitization on.  The sampling loop of `calcDffLowerbound` (here with 10
samples) visits λ = 11, which lies strictly inside the sanitized range
`[1, 100]`, yet the transformed capacity `fFS1(0, 11, 0)` is 0 — the
ceiling division `ceil_div_pp(Σ, f(c,λ,c))` is a division by zero. -/
theorem dff_divzero_cex :
    sampleLoop (dffRange lFS1 0 1 1 true).max (dffStep 10 lFS1 0 1 1 true)
        (((dffRange lFS1 0 1 1 true).max - (dffRange lFS1 0 1 1 true).min).toNat + 2)
        ((dffRange lFS1 0 1 1 true).min + dffStep 10 lFS1 0 1 1 true) =
      some [11, 21, 31, 41, 51, 61, 71, 81, 91] ∧
    strictlyInside 11 (dffRange lFS1 0 1 1 true) ∧
    fFS1 0 11 0 = 0 := by
  refine ⟨by decide, ⟨by decide, by decide⟩, by decide⟩

/-!  ## C5: `SizeSetMinusOne` consistency -/

theorem ent_antitone_in {s : List Int} (hs : sortedDesc s) {i j : Nat}
    (hij : i ≤ j) (hj : j < s.length) : ent s j ≤ ent s i := by
  rcases eq_or_lt_of_le hij with rfl | hlt
  · exact le_refl _
  · have hi : i < s.length := lt_trans hlt hj
    rw [ent_eq_getElem hi, ent_eq_getElem hj]
    exact (List.pairwise_iff_getElem.mp hs) i j hi hj hlt

theorem minusLoop_spec {s : List Int} {v : Int} :
    ∀ (fuel : Nat) (p : Int), -1 ≤ p →
    ∀ j : Nat, p < (j : Int) → j < s.length → ent s j ≤ v →
    (s.length : Int) - p ≤ (fuel : Int) →
    ∃ q : Nat, minusLoop s v fuel p = some ((q : Nat) : Int) ∧
      p < (q : Int) ∧ (q : Int) ≤ (j : Int) ∧ ent s q ≤ v := by
  intro fuel
  induction fuel with
  | zero =>
    intro p hp j hj1 hj2 _ hfuel
    exfalso
    have : (j : Int) < (s.length : Int) := by exact_mod_cast hj2
    omega
  | succ n ih =>
    intro p hp j hj1 hj2 hjv hfuel
    have hjlen : (j : Int) < (s.length : Int) := by exact_mod_cast hj2
    have hacc : getI s (p + 1) = some (ent s (p + 1).toNat) := by
      unfold getI
      rw [if_pos ⟨by omega, by omega⟩]
    rw [minusLoop, hacc]
    dsimp only
    by_cases hv : v < ent s (p + 1).toNat
    · have hne : ¬ ((p + 1).toNat : Int) = (j : Int) := by
        intro he
        have : (p + 1).toNat = j := by exact_mod_cast he
        rw [this] at hv
        omega
      rw [if_pos hv]
      obtain ⟨q, hq, h1, h2, h3⟩ := ih (p + 1) (by omega) j (by omega) hj2 hjv (by omega)
      exact ⟨q, hq, by omega, h2, h3⟩
    · rw [if_neg hv]
      push_neg at hv
      refine ⟨(p + 1).toNat, ?_, by omega, by omega, hv⟩
      rw [Int.toNat_of_nonneg (show (0:Int) ≤ p + 1 by omega)]

theorem minus_spec {s : List Int} (hs : sortedDesc s) {p v : Int} {j : Nat}
    (hp : -1 ≤ p) (hj1 : p < (j : Int)) (hj2 : j < s.length) (hjv : ent s j = v) :
    ∃ q : Nat, minus s p v = some ((q : Nat) : Int) ∧ p < (q : Int) ∧
      (q : Int) ≤ (j : Int) ∧ ent s q = v := by
  obtain ⟨q, hq, h1, h2, h3⟩ :=
    minusLoop_spec (s.length + 1) p hp j hj1 hj2 (le_of_eq hjv) (by push_cast; omega)
  refine ⟨q, hq, h1, h2, le_antisymm h3 ?_⟩
  have hqj : q ≤ j := by exact_mod_cast h2
  have := ent_antitone_in hs hqj hj2
  omega

theorem cons_sublist_drop {s : List Int} {v : Int} {t : List Int} {m : Nat}
    (h : (v :: t).Sublist (s.drop m)) :
    ∃ j : Nat, m ≤ j ∧ j < s.length ∧ ent s j = v ∧ t.Sublist (s.drop (j + 1)) := by
  rcases List.cons_sublist_iff.mp h with ⟨r1, r2, heq, hv, ht⟩
  rcases List.mem_iff_getElem.mp hv with ⟨j0, hj0, hvj⟩
  have hlen : (s.drop m).length = r1.length + r2.length := by
    rw [heq, List.length_append]
  have hdl : (s.drop m).length = s.length - m := List.length_drop m s
  refine ⟨m + j0, by omega, by omega, ?_, ?_⟩
  · have h1 : ent (s.drop m) j0 = v := by
      rw [heq]
      have hj0d2 : j0 < (r1 ++ r2).length := by
        rw [List.length_append]
        omega
      rw [ent_eq_getElem hj0d2, List.getElem_append_left hj0]
      exact hvj
    rw [← h1]
    unfold ent
    rw [List.getD_eq_getElem?_getD, List.getD_eq_getElem?_getD, List.getElem?_drop]
  · have hr2 : r2 = s.drop (m + r1.length) := by
      rw [← List.drop_drop, heq, List.drop_left]
    refine ht.trans ?_
    rw [hr2, show m + r1.length = (m + j0 + 1) + (r1.length - j0 - 1) by omega,
      ← List.drop_drop]
    exact List.drop_sublist _ _

theorem runMinusFrom_spec {s : List Int} (hs : sortedDesc s) :
    ∀ (t : List Int) (v : Int) (p : Int), -1 ≤ p →
    (v :: t).Sublist (s.drop ((p + 1).toNat)) →
    ∃ q : Nat, List.foldlM (fun p v => minus s p v) p (v :: t) = some ((q : Nat) : Int) ∧
      q < s.length ∧ p < (q : Int) ∧ some (ent s q) = (v :: t).getLast? := by
  intro t
  induction t with
  | nil =>
    intro v p hp hsub
    obtain ⟨j, hj0, hj1, hj2, -⟩ := cons_sublist_drop hsub
    have hpj : p < (j : Int) := by omega
    obtain ⟨q, hq, hq1, hq2, hq3⟩ := minus_spec hs hp hpj hj1 hj2
    refine ⟨q, ?_, by omega, hq1, ?_⟩
    · simp only [List.foldlM_cons, hq, List.foldlM_nil]
      rfl
    · rw [hq3]
      rfl
  | cons v2 t2 ih =>
    intro v p hp hsub
    obtain ⟨j, hj0, hj1, hj2, hrest⟩ := cons_sublist_drop hsub
    have hpj : p < (j : Int) := by omega
    obtain ⟨q, hq, hq1, hq2, hq3⟩ := minus_spec hs hp hpj hj1 hj2
    have hsub2 : (v2 :: t2).Sublist (s.drop (((q : Int) + 1).toNat)) := by
      refine hrest.trans ?_
      rw [show j + 1 = ((q : Int) + 1).toNat + (j + 1 - ((q : Int) + 1).toNat) by omega,
        ← List.drop_drop]
      exact List.drop_sublist _ _
    obtain ⟨q2, hq2', hlen2, hgt2, hlast2⟩ := ih v2 (q : Int) (by omega) hsub2
    refine ⟨q2, ?_, hlen2, by omega, ?_⟩
    · simp only [List.foldlM_cons, hq]
      simpa using hq2'
    · rw [hlast2, List.getLast?_cons_cons]

/-- **C5**: for a `SizeSetMinusOne` over a descending size list `s`, and any
call sequence of `minus(v)` whose excluded values are non-increasing and drawn
from the contents of `s`, after the call `minus(v)` the cursor `p` points at an
occurrence of `v`, so `total()` is the underlying total minus `v`, `card()` is
the underlying cardinality minus one, and `operator[]` enumerates the entries
with position `p` skipped. -/
theorem ssmo_consistent (s : List Int) (vs : List Int) (v : Int)
    (hs : sortedDesc s) (hord : sortedDesc (vs ++ [v]))
    (hsub : (vs ++ [v]).Subperm s) :
    ∃ q : Nat, runMinus s (vs ++ [v]) = some ((q : Nat) : Int) ∧ q < s.length ∧
      ent s q = v ∧
      ssmoTotal s (q : Int) = s.sum - v ∧
      ssmoCard s = (s.length : Int) - 1 ∧
      ∀ i : Nat, ssmoGet s (q : Int) i =
        if (i : Int) < (q : Int) then ent s i else ent s (i + 1) := by
  have hsl : (vs ++ [v]).Sublist s := List.sublist_of_subperm_of_sorted hsub hord hs
  obtain ⟨hh, tt, hvs⟩ : ∃ hh tt, vs ++ [v] = hh :: tt := by
    cases vs with
    | nil => exact ⟨v, [], rfl⟩
    | cons a l => exact ⟨a, l ++ [v], rfl⟩
  have hsub0 : (hh :: tt).Sublist (s.drop (((-1 : Int) + 1).toNat)) := by
    rw [show ((-1 : Int) + 1).toNat = 0 by decide, List.drop_zero, ← hvs]
    exact hsl
  obtain ⟨q, hq, hlen, -, hlast⟩ := runMinusFrom_spec hs tt hh (-1) (by norm_num) hsub0
  have hlastv : ent s q = v := by
    have h1 : (hh :: tt).getLast? = some v := by
      rw [← hvs, List.getLast?_concat]
    rw [h1] at hlast
    exact Option.some_injective _ hlast
  refine ⟨q, ?_, hlen, hlastv, ?_, rfl, fun i => rfl⟩
  · rw [runMinus, hvs]
    exact hq
  · unfold ssmoTotal
    rw [Int.toNat_natCast, hlastv]

/-- Witness for `ssmo_consistent`: `s = [5,4,4,2]`, exclusion sequence
`minus(4)` then `minus(2)`. -/
theorem ssmo_consistent_check :
    ∃ q : Nat, runMinus [5, 4, 4, 2] ([4] ++ [2]) = some ((q : Nat) : Int) ∧
      q < ([5, 4, 4, 2] : List Int).length ∧
      ent [5, 4, 4, 2] q = 2 ∧
      ssmoTotal [5, 4, 4, 2] (q : Int) = ([5, 4, 4, 2] : List Int).sum - 2 ∧
      ssmoCard [5, 4, 4, 2] = (([5, 4, 4, 2] : List Int).length : Int) - 1 ∧
      ∀ i : Nat, ssmoGet [5, 4, 4, 2] (q : Int) i =
        if (i : Int) < (q : Int) then ent [5, 4, 4, 2] i else ent [5, 4, 4, 2] (i + 1) :=
  ssmo_consistent [5, 4, 4, 2] [4] 2 (by unfold sortedDesc; decide)
    (by unfold sortedDesc; decide) (by decide)

/-!  ## The subset-sum gap lemma

The combinatorial heart of the `nosum` claims: over a descending list of
nonnegative sizes, for any `K`, `Q`, `d` with `d + K + Q + 1 = |s|`, every
sub-multiset sum is either at most (sum of the `K` largest) + (sum of the
`Q` smallest), or at least the sum of the window of `K+1` consecutive
entries starting at `d`. -/

theorem extendEmb_lt {m N : Nat} (f : Fin m ↪o Fin N) {j : Nat} (h : j < m) :
    extendEmb m N f j = (f ⟨j, h⟩ : Nat) := dif_pos h

theorem extendEmb_strictMono {m N : Nat} (f : Fin m ↪o Fin N) :
    StrictMono (extendEmb m N f) := by
  intro i j hij
  unfold extendEmb
  by_cases hi : i < m
  · by_cases hj : j < m
    · rw [dif_pos hi, dif_pos hj]
      exact f.strictMono (Fin.mk_lt_mk.mpr hij)
    · rw [dif_pos hi, dif_neg hj]
      have := (f ⟨i, hi⟩).isLt
      omega
  · have hj : ¬ j < m := by omega
    rw [dif_neg hi, dif_neg hj]
    omega

theorem strictMono_nat_add_le {F : Nat → Nat} (hF : StrictMono F) (i di : Nat) :
    F i + di ≤ F (i + di) := by
  induction di with
  | zero => simp
  | succ dd ihd =>
    have h1 : F (i + dd) < F (i + dd + 1) := hF (by omega)
    rw [show i + (dd + 1) = i + dd + 1 by omega]
    omega

theorem extendEmb_add_le {m N : Nat} (f : Fin m ↪o Fin N) {j : Nat} (h : j < m) :
    extendEmb m N f j + m ≤ N + j := by
  have h1 := strictMono_nat_add_le (extendEmb_strictMono f) j (m - 1 - j)
  have h2 : extendEmb m N f (j + (m - 1 - j)) = (f ⟨m - 1, by omega⟩ : Nat) := by
    rw [show j + (m - 1 - j) = m - 1 by omega]
    exact extendEmb_lt f (by omega)
  have h3 : (f ⟨m - 1, by omega⟩ : Nat) < N := (f _).isLt
  rw [h2] at h1
  omega

theorem sublist_sum_emb (s t : List Int) (ht : t.Sublist s) :
    ∃ f : Fin t.length ↪o Fin s.length,
      t.sum = ∑ j ∈ Finset.range t.length, ent s (extendEmb t.length s.length f j) := by
  obtain ⟨f, hf⟩ := List.sublist_iff_exists_fin_orderEmbedding_get_eq.mp ht
  refine ⟨f, ?_⟩
  conv_lhs => rw [← List.ofFn_get t]
  rw [List.sum_ofFn, ← Fin.sum_univ_eq_sum_range
    (fun j => ent s (extendEmb t.length s.length f j)) t.length]
  refine Finset.sum_congr rfl fun i _ => ?_
  rw [hf i, extendEmb_lt f i.isLt, Fin.eta]
  rw [ent_eq_getElem (f i).isLt]
  rfl

theorem sum_range_split (G : Nat → Int) {m j0 : Nat} (h : j0 ≤ m) :
    ∑ j ∈ Finset.range m, G j =
      (∑ j ∈ Finset.range j0, G j) + ∑ j ∈ Finset.range (m - j0), G (j0 + j) := by
  have h1 : ∑ j ∈ Finset.range j0, G j = ∑ j ∈ Finset.Ico 0 j0, G j := by
    rw [Finset.range_eq_Ico]
  have h2 : ∑ j ∈ Finset.range (m - j0), G (j0 + j) = ∑ j ∈ Finset.Ico j0 m, G j := by
    rw [Finset.sum_Ico_eq_sum_range]
  rw [h1, h2, Finset.range_eq_Ico, Finset.sum_Ico_consecutive G (Nat.zero_le j0) h]

theorem subset_sum_gap (s : List Int) (hs : sortedDesc s) (hnn : nonnegSizes s)
    (K Q d : Nat) (hd : d + K + Q + 1 = s.length)
    {t : List Int} (ht : t.Sublist s) :
    t.sum ≤ seg s 0 K + seg s (s.length - Q) Q ∨ seg s d (K + 1) ≤ t.sum := by
  obtain ⟨f, hsum⟩ := sublist_sum_emb s t ht
  have hFj : ∀ j, j ≤ extendEmb t.length s.length f j :=
    fun j => (extendEmb_strictMono f).le_apply
  have hFub : ∀ j, j < t.length →
      extendEmb t.length s.length f j + t.length ≤ s.length + j :=
    fun j h => extendEmb_add_le f h
  have hmN : t.length ≤ s.length := ht.length_le
  rcases le_or_lt t.length K with hmK | hmK
  · -- at most K elements: the sum is at most the sum of the K largest
    left
    have h1 : t.sum ≤ ∑ j ∈ Finset.range t.length, ent s j := by
      rw [hsum]
      exact Finset.sum_le_sum fun j _ => ent_antitone hs hnn (hFj j)
    have h2 : (∑ j ∈ Finset.range t.length, ent s j) = seg s 0 t.length := by
      unfold seg
      exact Finset.sum_congr rfl fun j _ => by rw [Nat.zero_add]
    have h3 : seg s 0 t.length ≤ seg s 0 K := seg_mono_width hnn 0 hmK
    have h4 : 0 ≤ seg s (s.length - Q) Q := seg_nonneg hnn _ _
    omega
  rcases le_or_lt t.length (K + Q) with hmKQ | hmKQ
  · by_cases hP : ∃ j, j ≤ K ∧ d + j < extendEmb t.length s.length f j
    · -- some position escapes past the window: the sum is small
      left
      obtain ⟨j0, hj0K, hj0bad⟩ := hP
      have hj0m : j0 ≤ t.length := by omega
      have hsplit : t.sum = (∑ j ∈ Finset.range j0, ent s (extendEmb t.length s.length f j)) +
          ∑ j ∈ Finset.range (t.length - j0), ent s (extendEmb t.length s.length f (j0 + j)) := by
        rw [hsum]
        exact sum_range_split _ hj0m
      have hfirst : (∑ j ∈ Finset.range j0, ent s (extendEmb t.length s.length f j)) ≤
          seg s 0 j0 := by
        unfold seg
        refine Finset.sum_le_sum fun j _ => ?_
        exact ent_antitone hs hnn (by have := hFj j; omega)
      have hsecond : (∑ j ∈ Finset.range (t.length - j0),
          ent s (extendEmb t.length s.length f (j0 + j))) ≤
          seg s (d + j0 + 1) (t.length - j0) := by
        unfold seg
        refine Finset.sum_le_sum fun j _ => ?_
        refine ent_antitone hs hnn ?_
        have h5 := strictMono_nat_add_le (extendEmb_strictMono f) j0 j
        omega
      have harith : seg s 0 j0 + seg s (d + j0 + 1) (t.length - j0) ≤
          seg s 0 K + seg s (s.length - Q) Q := by
        have e1 : t.length - j0 = (K - j0) + (t.length - K) := by omega
        rw [e1, seg_split]
        have e2 : seg s (d + j0 + 1) (K - j0) ≤ seg s j0 (K - j0) :=
          seg_anti_start hs hnn (by omega) _
        have e3 : seg s 0 (j0 + (K - j0)) = seg s 0 j0 + seg s (0 + j0) (K - j0) :=
          seg_split s 0 j0 (K - j0)
        rw [show j0 + (K - j0) = K by omega, Nat.zero_add] at e3
        rw [show d + j0 + 1 + (K - j0) = s.length - Q by omega]
        have e5 : seg s (s.length - Q) (t.length - K) ≤ seg s (s.length - Q) Q :=
          seg_mono_width hnn _ (by omega)
        omega
      omega
    · -- the first K+1 positions all dominate the window pointwise
      right
      push_neg at hP
      have hsplit : t.sum = (∑ j ∈ Finset.range (K + 1), ent s (extendEmb t.length s.length f j)) +
          ∑ j ∈ Finset.range (t.length - (K + 1)),
            ent s (extendEmb t.length s.length f (K + 1 + j)) := by
        rw [hsum]
        exact sum_range_split _ (by omega)
      have h1 : seg s d (K + 1) ≤
          ∑ j ∈ Finset.range (K + 1), ent s (extendEmb t.length s.length f j) := by
        unfold seg
        refine Finset.sum_le_sum fun j hj => ?_
        have hjK : j ≤ K := by
          have := Finset.mem_range.mp hj
          omega
        exact ent_antitone hs hnn (hP j hjK)
      have h2 : 0 ≤ ∑ j ∈ Finset.range (t.length - (K + 1)),
          ent s (extendEmb t.length s.length f (K + 1 + j)) :=
        Finset.sum_nonneg fun j _ => ent_nonneg hnn _
      omega
  · -- more than K+Q elements: the sum contains the whole window
    right
    have h1 : (∑ j ∈ Finset.range t.length, ent s (s.length - t.length + j)) ≤ t.sum := by
      rw [hsum]
      refine Finset.sum_le_sum fun j hj => ?_
      refine ent_antitone hs hnn ?_
      have := hFub j (Finset.mem_range.mp hj)
      omega
    have h2 : (∑ j ∈ Finset.range t.length, ent s (s.length - t.length + j)) =
        seg s (s.length - t.length) t.length := rfl
    have h3 : seg s d (K + 1) ≤ seg s (s.length - t.length) t.length := by
      have hdm : s.length - t.length ≤ d := by omega
      have hsplit1 := seg_split s (s.length - t.length) (d - (s.length - t.length))
        (t.length - (d - (s.length - t.length)))
      rw [show (d - (s.length - t.length)) + (t.length - (d - (s.length - t.length))) =
        t.length by omega] at hsplit1
      rw [show s.length - t.length + (d - (s.length - t.length)) = d by omega] at hsplit1
      have h7 : seg s d (K + 1) ≤ seg s d (t.length - (d - (s.length - t.length))) :=
        seg_mono_width hnn d (by omega)
      have h8 : 0 ≤ seg s (s.length - t.length) (d - (s.length - t.length)) :=
        seg_nonneg hnn _ _
      omega
    omega

/-!  ## The `nosum` loop invariants

Throughout, with `N = s.length` and `n = N - 1`:
`sa = seg s 0 k` is the sum of the `k` largest sizes,
`sc = seg s (N - kp) kp` is the sum of the `kp` smallest sizes, and
`sb = seg s (N - 1 - kp - k) (k + 1)` is the sum of the window of `k+1`
consecutive sizes ending at index `n - kp`. -/

theorem getI_nat (s : List Int) {i : Nat} (h : i < s.length) :
    getI s ((i : Nat) : Int) = some (ent s i) := by
  unfold getI
  rw [if_pos ⟨by omega, by exact_mod_cast h⟩, Int.toNat_natCast]

theorem length_pos_of_sum_lt {s : List Int} {b : Int} (h : b < s.sum) (hb : 0 ≤ b) :
    1 ≤ s.length := by
  rcases s with - | ⟨x, tl⟩
  · simp at h
    omega
  · simp

theorem nosumInit_go (s : List Int) (a : Int) (hatot : a ≤ s.sum) :
    ∀ (fuel kp0 : Nat), kp0 + 1 ≤ s.length →
    seg s (s.length - kp0) kp0 < a →
    s.length - kp0 ≤ fuel →
    ∃ kp : Nat, nosumInit s a fuel (seg s (s.length - kp0) kp0) ((kp0 : Nat) : Int) =
        some (seg s (s.length - kp) kp, ((kp : Nat) : Int)) ∧
      kp0 ≤ kp ∧ kp + 1 ≤ s.length ∧
      seg s (s.length - kp) kp < a ∧
      a ≤ seg s (s.length - kp) kp + ent s (s.length - 1 - kp) := by
  intro fuel
  induction fuel with
  | zero => intro kp0 h1 _ h3; omega
  | succ m ih =>
    intro kp0 h1 h2 h3
    have hidx : ((s.length : Int) - 1 - ((kp0 : Nat) : Int)) =
        (((s.length - 1 - kp0 : Nat) : Nat) : Int) := by omega
    have hb : s.length - 1 - kp0 < s.length := by omega
    rw [nosumInit, hidx, getI_nat s hb]
    dsimp only
    by_cases hc : seg s (s.length - kp0) kp0 + ent s (s.length - 1 - kp0) < a
    · -- one more small element is folded into sc
      have hsucc : seg s (s.length - (kp0 + 1)) (kp0 + 1) =
          ent s (s.length - 1 - kp0) + seg s (s.length - kp0) kp0 := by
        have := seg_succ_left s (s.length - (kp0 + 1)) kp0
        rw [show s.length - (kp0 + 1) + 1 = s.length - kp0 by omega] at this
        rw [this, show s.length - (kp0 + 1) = s.length - 1 - kp0 by omega]
      have hk1 : kp0 + 1 + 1 ≤ s.length := by
        by_contra hgt
        have he : kp0 + 1 = s.length := by omega
        have : seg s (s.length - (kp0 + 1)) (kp0 + 1) = s.sum := by
          rw [he, Nat.sub_self, ← sum_eq_seg]
        omega
      rw [if_pos hc]
      obtain ⟨kp, hkp, hh1, hh2, hh3, hh4⟩ := ih (kp0 + 1) hk1 (by omega) (by omega)
      have e1 : seg s (s.length - kp0) kp0 + ent s (s.length - 1 - kp0) =
          seg s (s.length - (kp0 + 1)) (kp0 + 1) := by omega
      have e2 : ((kp0 : Nat) : Int) + 1 = (((kp0 + 1 : Nat) : Nat) : Int) := by
        push_cast
        ring
      rw [e1, e2, hkp]
      exact ⟨kp, rfl, by omega, hh2, hh3, hh4⟩
    · rw [if_neg hc]
      exact ⟨kp0, rfl, le_refl _, h1, h2, by omega⟩

theorem nosumInner_go (s : List Int) (a sa : Int) (hsa : sa < a) (kN : Nat) :
    ∀ (fuel kpN : Nat),
    kN + kpN ≤ s.length - 1 →
    1 ≤ kN →
    kpN + 1 ≤ fuel →
    a ≤ sa + seg s (s.length - (kpN + 1)) (kpN + 1) →
    ∃ kp2 : Nat,
      nosumInner s a ((kN : Nat) : Int) sa fuel ((kpN : Nat) : Int)
          (seg s (s.length - 1 - kpN - kN) (kN + 1)) (seg s (s.length - kpN) kpN) =
        some (((kp2 : Nat) : Int), seg s (s.length - 1 - kp2 - kN) (kN + 1),
          seg s (s.length - kp2) kp2) ∧
      kp2 ≤ kpN ∧
      sa + seg s (s.length - kp2) kp2 < a ∧
      a ≤ sa + seg s (s.length - (kp2 + 1)) (kp2 + 1) := by
  intro fuel
  induction fuel with
  | zero => intro kpN _ _ h3 _; omega
  | succ m ih =>
    intro kpN hkkp hk1 hfuel hI3
    rw [nosumInner]
    by_cases hc : a ≤ sa + seg s (s.length - kpN) kpN
    · -- fold one more element out of sc and slide the window
      have hkp1 : 1 ≤ kpN := by
        by_contra h0
        have h0' : kpN = 0 := by omega
        rw [h0', Nat.sub_zero, seg_zero] at hc
        omega
      have hNlen : kN + kpN + 1 ≤ s.length := by omega
      have hidy : ((s.length : Int) - 1 - (((kpN : Nat) : Int) - 1)) =
          (((s.length - kpN : Nat) : Nat) : Int) := by omega
      have hidz : ((s.length : Int) - 1 - (((kpN : Nat) : Int) - 1) - ((kN : Nat) : Int) - 1) =
          (((s.length - 1 - kpN - kN : Nat) : Nat) : Int) := by omega
      have hby : s.length - kpN < s.length := by omega
      have hbz : s.length - 1 - kpN - kN < s.length := by omega
      rw [if_pos hc, hidz, hidy, getI_nat s hby, getI_nat s hbz]
      dsimp only
      -- sc - y = seg of (kpN - 1) smallest
      have hscy : seg s (s.length - kpN) kpN - ent s (s.length - kpN) =
          seg s (s.length - (kpN - 1)) (kpN - 1) := by
        have := seg_succ_left s (s.length - kpN) (kpN - 1)
        rw [show kpN - 1 + 1 = kpN by omega,
          show s.length - kpN + 1 = s.length - (kpN - 1) by omega] at this
        omega
      -- sb + y - z = the window slid one step to the right
      have hslide : seg s (s.length - 1 - kpN - kN) (kN + 1) + ent s (s.length - kpN)
          - ent s (s.length - 1 - kpN - kN) =
          seg s (s.length - 1 - (kpN - 1) - kN) (kN + 1) := by
        have ha1 := seg_succ s (s.length - 1 - kpN - kN) (kN + 1)
        have ha2 := seg_succ_left s (s.length - 1 - kpN - kN) (kN + 1)
        rw [show s.length - 1 - kpN - kN + (kN + 1) = s.length - kpN by omega] at ha1
        rw [show s.length - 1 - kpN - kN + 1 = s.length - 1 - (kpN - 1) - kN by omega] at ha2
        omega
      obtain ⟨kp2, hkp2, hh1, hh2, hh3⟩ := ih (kpN - 1) (by omega) hk1 (by omega)
        (by rw [show kpN - 1 + 1 = kpN by omega]; exact hc)
      have e1 : ((kpN : Nat) : Int) - 1 = (((kpN - 1 : Nat) : Nat) : Int) := by omega
      rw [e1, hslide, hscy, hkp2]
      exact ⟨kp2, rfl, by omega, hh2, hh3⟩
    · rw [if_neg hc]
      push_neg at hc
      exact ⟨kpN, rfl, le_refl _, hc, hI3⟩

theorem nosumMain_exit_false (s : List Int) (a b : Int) (fuel : Nat) (k kp sa sb sc : Int)
    (hsa : a ≤ sa) :
    nosumMain s a b (fuel + 1) k kp sa sb sc = some (false, sa + sc, sb) := by
  rw [nosumMain, if_neg (fun h => absurd h.1 (not_lt.mpr hsa)),
    decide_eq_false (not_lt.mpr hsa)]

theorem nosumMain_go (s : List Int) (a b : Int) (hs : sortedDesc s) (hnn : nonnegSizes s)
    (hatot : a ≤ s.sum) :
    ∀ (fuel kN kpN : Nat),
    kN + kpN ≤ s.length - 1 →
    s.length + 2 - kN ≤ fuel →
    seg s 0 kN + seg s (s.length - kpN) kpN < a →
    a ≤ seg s 0 kN + seg s (s.length - (kpN + 1)) (kpN + 1) →
    ∃ r ap bp, nosumMain s a b fuel ((kN : Nat) : Int) ((kpN : Nat) : Int)
        (seg s 0 kN) (seg s (s.length - 1 - kpN - kN) (kN + 1))
        (seg s (s.length - kpN) kpN) = some (r, ap, bp) ∧
      (r = true → ∃ kE kpE : Nat, kE + kpE ≤ s.length - 1 ∧
        ap = seg s 0 kE + seg s (s.length - kpE) kpE ∧
        bp = seg s (s.length - 1 - kpE - kE) (kE + 1) ∧
        seg s 0 kE + seg s (s.length - kpE) kpE < a ∧ b < bp) := by
  intro fuel
  induction fuel with
  | zero => intro kN kpN h1 h2 _ _; omega
  | succ m ih =>
    intro kN kpN hkkp hfuel hI2 hI3
    by_cases hcond : seg s 0 kN < a ∧ seg s (s.length - 1 - kpN - kN) (kN + 1) ≤ b
    · obtain ⟨hsa, hsb⟩ := hcond
      rw [nosumMain, if_pos ⟨hsa, hsb⟩]
      have hkN : kN < s.length := by
        by_contra hge
        have hw : seg s 0 s.length ≤ seg s 0 kN := seg_mono_width hnn 0 (by omega)
        rw [← sum_eq_seg] at hw
        omega
      rw [getI_nat s hkN]
      dsimp only
      have hsax : seg s 0 kN + ent s kN = seg s 0 (kN + 1) := by
        have := seg_succ s 0 kN
        rw [Nat.zero_add] at this
        omega
      by_cases hbr : seg s 0 kN + ent s kN < a
      · -- the if-branch: unconditional fold followed by the inner loop
        rw [if_pos hbr]
        have hkp1 : 1 ≤ kpN := by
          by_contra h0
          have h0' : kpN = 0 := by omega
          rw [h0', Nat.zero_add] at hI3
          rw [seg_one] at hI3
          have hmono : ent s (s.length - 1) ≤ ent s kN :=
            ent_antitone_in hs (by omega) (by omega)
          omega
        have hidy : ((s.length : Int) - 1 - (((kpN : Nat) : Int) - 1)) =
            (((s.length - kpN : Nat) : Nat) : Int) := by omega
        have hby : s.length - kpN < s.length := by omega
        rw [hidy, getI_nat s hby]
        dsimp only
        have hsb1 : seg s (s.length - 1 - kpN - kN) (kN + 1) + ent s (s.length - kpN) =
            seg s (s.length - 1 - (kpN - 1) - (kN + 1)) ((kN + 1) + 1) := by
          have hq := seg_succ s (s.length - 1 - kpN - kN) (kN + 1)
          rw [show s.length - 1 - kpN - kN + (kN + 1) = s.length - kpN by omega] at hq
          rw [show s.length - 1 - (kpN - 1) - (kN + 1) = s.length - 1 - kpN - kN by omega]
          omega
        have hsc1 : seg s (s.length - kpN) kpN - ent s (s.length - kpN) =
            seg s (s.length - (kpN - 1)) (kpN - 1) := by
          have hq := seg_succ_left s (s.length - kpN) (kpN - 1)
          rw [show kpN - 1 + 1 = kpN by omega,
            show s.length - kpN + 1 = s.length - (kpN - 1) by omega] at hq
          omega
        have hI3' : a ≤ (seg s 0 kN + ent s kN) +
            seg s (s.length - ((kpN - 1) + 1)) ((kpN - 1) + 1) := by
          rw [show (kpN - 1) + 1 = kpN by omega]
          have hsucc : seg s (s.length - (kpN + 1)) (kpN + 1) =
              ent s (s.length - (kpN + 1)) + seg s (s.length - kpN) kpN := by
            have hq := seg_succ_left s (s.length - (kpN + 1)) kpN
            rw [show s.length - (kpN + 1) + 1 = s.length - kpN by omega] at hq
            exact hq
          have hmono : ent s (s.length - (kpN + 1)) ≤ ent s kN :=
            ent_antitone_in hs (by omega) (by omega)
          omega
        obtain ⟨kp2, hkp2eq, hkp2le, hex1, hex2⟩ :=
          nosumInner_go s a (seg s 0 kN + ent s kN) hbr (kN + 1)
            (s.length + 2) (kpN - 1) (by omega) (by omega) (by omega) hI3'
        have e1 : ((kpN : Nat) : Int) - 1 = (((kpN - 1 : Nat) : Nat) : Int) := by omega
        have e2 : ((kN : Nat) : Int) + 1 = (((kN + 1 : Nat) : Nat) : Int) := by
          push_cast
          ring
        rw [e1, e2, hsb1, hsc1, hkp2eq]
        dsimp only
        rw [hsax]
        exact ih (kN + 1) kp2 (by omega) (by omega) (by omega) (by omega)
      · -- the added element reaches `a`: the loop exits on the next check
        rw [if_neg hbr]
        obtain ⟨m0, rfl⟩ : ∃ m0, m = m0 + 1 := ⟨m - 1, by omega⟩
        rw [nosumMain_exit_false s a b m0 _ _ _ _ _ (by omega)]
        refine ⟨false, _, _, rfl, fun h => ?_⟩
        simp at h
    · rw [nosumMain, if_neg hcond]
      refine ⟨_, _, _, rfl, fun hr => ?_⟩
      have hsa : seg s 0 kN < a := of_decide_eq_true hr
      have hsb : b < seg s (s.length - 1 - kpN - kN) (kN + 1) := by
        by_contra hno
        push_neg at hno
        exact hcond ⟨hsa, hno⟩
      exact ⟨kN, kpN, hkkp, rfl, rfl, hI2, hsb⟩

theorem nosum4_run (s : List Int) (a b : Int) (hs : sortedDesc s) (hnn : nonnegSizes s)
    (ha : 0 < a) (hab : a ≤ b) (hbtot : b < s.sum) :
    ∃ (r : Bool) (ap bp : Int), nosum4 s a b = some (r, some (ap, bp)) ∧
      (r = true → achievable s ap ∧ ap < a ∧ achievable s bp ∧ b < bp ∧
        ∀ t : List Int, t.Sublist s → t.sum ≤ ap ∨ bp ≤ t.sum) := by
  have hatot : a ≤ s.sum := by omega
  have hN : 1 ≤ s.length := length_pos_of_sum_lt hbtot (by omega)
  unfold nosum4
  rw [if_neg (show ¬ (a ≤ 0 ∨ s.sum ≤ b) by push_neg; exact ⟨by omega, by omega⟩)]
  obtain ⟨kp, hkpeq, -, hkpN, hC, hI3ent⟩ := nosumInit_go s a hatot (s.length + 2) 0
    (by omega) (by rw [seg_zero]; omega) (by omega)
  rw [seg_zero, Nat.cast_zero] at hkpeq
  rw [hkpeq]
  dsimp only
  have hidx : ((s.length : Int) - 1 - ((kp : Nat) : Int)) =
      (((s.length - 1 - kp : Nat) : Nat) : Int) := by omega
  have hbx : s.length - 1 - kp < s.length := by omega
  rw [hidx, getI_nat s hbx]
  dsimp only
  have hsuccC : seg s (s.length - (kp + 1)) (kp + 1) =
      ent s (s.length - (kp + 1)) + seg s (s.length - kp) kp := by
    have hq := seg_succ_left s (s.length - (kp + 1)) kp
    rw [show s.length - (kp + 1) + 1 = s.length - kp by omega] at hq
    exact hq
  have hentEq : ent s (s.length - (kp + 1)) = ent s (s.length - 1 - kp) := by
    rw [show s.length - (kp + 1) = s.length - 1 - kp by omega]
  obtain ⟨r, ap, bp, hmaineq, hchar⟩ := nosumMain_go s a b hs hnn hatot
    (s.length + 2) 0 kp (by omega) (by omega)
    (by rw [seg_zero]; omega) (by rw [seg_zero]; omega)
  rw [seg_zero, Nat.cast_zero, Nat.sub_zero, Nat.zero_add, seg_one] at hmaineq
  rw [hmaineq]
  dsimp only
  refine ⟨r, ap, bp, rfl, fun hr => ?_⟩
  obtain ⟨kE, kpE, hkkpE, hapE, hbpE, hlt, hgt⟩ := hchar hr
  have hkEN : kE ≤ s.length := by omega
  have hkpEN : kpE ≤ s.length := by omega
  refine ⟨?_, by omega, ?_, hgt, ?_⟩
  · refine ⟨s.take kE ++ s.drop (s.length - kpE), take_append_drop_sublist s _ _ (by omega), ?_⟩
    rw [List.sum_append, sum_take s hkEN, sum_drop s (s.length - kpE),
      show s.length - (s.length - kpE) = kpE by omega, hapE]
  · refine ⟨(s.drop (s.length - 1 - kpE - kE)).take (kE + 1), drop_take_sublist s _ _, ?_⟩
    rw [sum_drop_take s (by omega : (s.length - 1 - kpE - kE) + (kE + 1) ≤ s.length), hbpE]
  · intro t ht
    have hgap := subset_sum_gap s hs hnn kE kpE (s.length - 1 - kpE - kE) (by omega) ht
    rw [← hapE, ← hbpE] at hgap
    exact hgap

/-- **C1** (NoSum soundness): for a descending multiset `S` of nonnegative
sizes and `0 < a ≤ b < total(S)`, if the two-argument `Pack::nosum(S, a, b)`
returns true then no sub-multiset of `S` has a sum in the half-open interval
`]a, b]`. -/
theorem nosum_sound (s : List Int) (a b : Int) (hs : sortedDesc s)
    (hnn : nonnegSizes s) (ha : 0 < a) (hab : a ≤ b) (hbtot : b < s.sum)
    (hres : nosum2 s a b = some true) :
    ∀ t : List Int, t.Sublist s → ¬ (a < t.sum ∧ t.sum ≤ b) := by
  obtain ⟨r, ap, bp, heq, hchar⟩ := nosum4_run s a b hs hnn ha hab hbtot
  have hr : r = true := by
    unfold nosum2 at hres
    rw [heq] at hres
    simpa using hres
  obtain ⟨-, hap2, -, hbp2, hgap⟩ := hchar hr
  rintro t ht ⟨h1, h2⟩
  rcases hgap t ht with h | h <;> omega

/-- Witness for `nosum_sound` at `S = [7,6]`, `a = 8`, `b = 12`, sub-multiset
`[6]` (no subset sums to a value in `]8,12]`). -/
theorem nosum_sound_check :
    ¬ ((8:Int) < ([6] : List Int).sum ∧ ([6] : List Int).sum ≤ 12) :=
  nosum_sound [7, 6] 8 12 (by unfold sortedDesc; decide) (by decide)
    (by decide) (by decide) (by decide) (by decide) [6] (by decide)

/-- **C2** (NoSum completeness): for a descending multiset `S` of nonnegative
sizes and `a ≤ b`, if some sub-multiset of `S` has a sum in `]a, b]` then the
two-argument `Pack::nosum(S, a, b)` returns false. -/
theorem nosum_complete (s : List Int) (a b : Int) (hs : sortedDesc s)
    (hnn : nonnegSizes s) (hab : a ≤ b)
    (hex : ∃ t : List Int, t.Sublist s ∧ a < t.sum ∧ t.sum ≤ b) :
    nosum2 s a b = some false := by
  by_cases htriv : a ≤ 0 ∨ s.sum ≤ b
  · unfold nosum2
    rw [nosum_trivial s a b htriv]
    rfl
  · push_neg at htriv
    obtain ⟨ha, hbtot⟩ := htriv
    obtain ⟨r, ap, bp, heq, hchar⟩ := nosum4_run s a b hs hnn ha hab hbtot
    cases r with
    | false =>
      unfold nosum2
      rw [heq]
      rfl
    | true =>
      exfalso
      obtain ⟨t, ht, h1, h2⟩ := hex
      obtain ⟨-, hap2, -, hbp2, hgap⟩ := hchar rfl
      rcases hgap t ht with h | h <;> omega

/-- Witness for `nosum_complete` at `S = [7,6]`, `a = 5`, `b = 7`
(the subset `[7]` sums into `]5,7]`). -/
theorem nosum_complete_check : nosum2 [7, 6] 5 7 = some false :=
  nosum_complete [7, 6] 5 7 (by unfold sortedDesc; decide) (by decide) (by decide)
    ⟨[7], by decide, by decide, by decide⟩

/-- **C3** (NoSum output bounds): for a descending multiset `S` of nonnegative
sizes and `0 < a ≤ b < total(S)`, whenever the four-argument
`Pack::nosum(S, a, b, ap, bp)` returns true it writes outputs `ap`, `bp`
such that `ap` is an achievable subset sum with `ap ≤ a`, `bp` is an
achievable subset sum with `bp > b`, and no achievable subset sum lies
strictly between `ap` and `bp`. -/
theorem nosum_bounds (s : List Int) (a b : Int) (hs : sortedDesc s)
    (hnn : nonnegSizes s) (ha : 0 < a) (hab : a ≤ b) (hbtot : b < s.sum)
    (o : Option (Int × Int)) (hres : nosum4 s a b = some (true, o)) :
    ∃ ap bp : Int, o = some (ap, bp) ∧
      achievable s ap ∧ ap ≤ a ∧ achievable s bp ∧ b < bp ∧
      ∀ x : Int, achievable s x → ¬ (ap < x ∧ x < bp) := by
  obtain ⟨r, ap, bp, heq, hchar⟩ := nosum4_run s a b hs hnn ha hab hbtot
  rw [heq] at hres
  injection hres with h1
  injection h1 with hr ho
  obtain ⟨hap1, hap2, hbp1, hbp2, hgap⟩ := hchar hr
  refine ⟨ap, bp, ho.symm, hap1, by omega, hbp1, hbp2, ?_⟩
  rintro x ⟨t, ht, hsum⟩ ⟨h1, h2⟩
  rcases hgap t ht with h | h <;> omega

/-- Witness for `nosum_bounds` at `S = [7,6]`, `a = 8`, `b = 12`
(outputs `ap = 7`, `bp = 13`). -/
theorem nosum_bounds_check :
    ∃ ap bp : Int, (some ((7:Int), (13:Int)) : Option (Int × Int)) = some (ap, bp) ∧
      achievable [7, 6] ap ∧ ap ≤ 8 ∧ achievable [7, 6] bp ∧ 12 < bp ∧
      ∀ x : Int, achievable [7, 6] x → ¬ (ap < x ∧ x < bp) :=
  nosum_bounds [7, 6] 8 12 (by unfold sortedDesc; decide) (by decide) (by decide)
    (by decide) (by decide) (some (7, 13)) (by decide)

/-- **C10** (implicit index safety and termination of `nosum`): under the
documented preconditions every array access performed by `Pack::nosum` is in
bounds and all its loops terminate — in the checked, fuelled model the run
produces a result (never the `none` that marks an out-of-bounds read or an
exhausted loop bound). -/
theorem nosum_total (s : List Int) (a b : Int) (hs : sortedDesc s)
    (hnn : nonnegSizes s) (ha : 0 < a) (hab : a ≤ b) (hbtot : b < s.sum) :
    ∃ res : Bool × Option (Int × Int), nosum4 s a b = some res := by
  obtain ⟨r, ap, bp, heq, -⟩ := nosum4_run s a b hs hnn ha hab hbtot
  exact ⟨(r, some (ap, bp)), heq⟩

/-- Witness for `nosum_total` at `S = [7,6]`, `a = 8`, `b = 12`. -/
theorem nosum_total_check :
    ∃ res : Bool × Option (Int × Int), nosum4 [7, 6] 8 12 = some res :=
  nosum_total [7, 6] 8 12 (by unfold sortedDesc; decide) (by decide) (by decide)
    (by decide) (by decide)

end BinPacking
